import Mathlib

/-!
Verification development for the adaptive chunking engine and
retrieval/ranking pipeline of a RAG document system.

Python strings are modelled as `List Char` (`PyStr`), Python floats as `ℚ`,
Python lists as Lean lists.  The definitions below are direct translations of
`app/services/chunking_service.py`, `app/services/rag_service.py` and the
relevant parts of `app/services/storage_service.py`.  External collaborators
(the NLTK sentence tokenizer, the embedding provider and the vector store) are
modelled as explicit inputs: the sentence tokenizer as a function parameter
`sent_tokenize`, the vector-store answer as a `VectorResults` value, and
wall-clock time as an explicit `elapsed` argument.
-/

namespace Pyxon

/-- Python `str` modelled as a list of characters. -/
abbrev PyStr := List Char

/-- The whitespace characters of Python's `str.split()` / `str.strip()` /
regex `\s` (ASCII model). -/
def isPySpace (c : Char) : Bool :=
  c = ' ' || c = '\t' || c = '\n' || c = '\r' || c = '\x0b' || c = '\x0c'

/-- Python `str.split()` with no separator: split on runs of whitespace,
discarding empty pieces. -/
def pySplitL (cs : PyStr) : List PyStr :=
  match cs with
  | [] => []
  | c :: rest =>
    if isPySpace c then pySplitL rest
    else
      (c :: rest).takeWhile (fun x => !(isPySpace x)) ::
        pySplitL ((c :: rest).dropWhile (fun x => !(isPySpace x)))
termination_by cs.length
decreasing_by
  · simp
  · simp only [List.dropWhile]
    have h1 : ¬ isPySpace c = true := by simp_all
    simp [h1]
    exact Nat.lt_succ_of_le (List.dropWhile_sublist _).length_le

/-- Python `' '.join(words)`. -/
def joinWordsL : List PyStr → PyStr
  | [] => []
  | [w] => w
  | w :: v :: ws => w ++ ' ' :: joinWordsL (v :: ws)

/-- Python `str.strip()`: remove leading and trailing whitespace. -/
def pyStrip (cs : PyStr) : PyStr :=
  ((cs.dropWhile isPySpace).reverse.dropWhile isPySpace).reverse

/-- Python `str.split(sep)` for a single-character separator: keeps empty
pieces (as `str.split('\n')` does). -/
def splitSep (sep : Char) : PyStr → List PyStr
  | [] => [[]]
  | c :: cs =>
    if c = sep then [] :: splitSep sep cs
    else
      match splitSep sep cs with
      | [] => [[c]]
      | p :: ps => (c :: p) :: ps

/-- The sentence-ending punctuation class `[.!?]` of the fallback sentence
splitter. -/
def isSentPunct (c : Char) : Bool :=
  c = '.' || c = '!' || c = '?'

/-- Python `re.split(r'[.!?]+', text)`: split on maximal runs of `.`, `!`,
`?`, keeping empty pieces. -/
def splitPunct (cs : PyStr) : List PyStr :=
  match cs with
  | [] => [[]]
  | c :: rest =>
    if isSentPunct c then [] :: splitPunct (rest.dropWhile isSentPunct)
    else
      match splitPunct rest with
      | [] => [[c]]
      | p :: ps => (c :: p) :: ps
termination_by cs.length
decreasing_by
  · simp
    exact Nat.lt_succ_of_le (List.dropWhile_sublist _).length_le
  · simp

/-- Helper for the `\n\s*\n` paragraph-break regex: given the characters
following an initial `'\n'`, return (if it exists) the number of characters up
to and including the last `'\n'` inside the maximal whitespace prefix.  That
is exactly how far the greedy `\s*` followed by a final backtracked `\n`
reaches. -/
def lastNLIdx : PyStr → Option ℕ
  | [] => none
  | c :: cs =>
    if isPySpace c then
      match lastNLIdx cs with
      | some n => some (n + 1)
      | none => if c = '\n' then some 1 else none
    else none

/-- Python `re.split(r'\n\s*\n', text)`: split on a newline, optional
whitespace, newline; empty pieces are kept (they are filtered out by
`split_paragraphs`). -/
def splitBlankRe (cs : PyStr) : List PyStr :=
  match cs with
  | [] => [[]]
  | c :: rest =>
    if c = '\n' then
      match lastNLIdx rest with
      | some n => [] :: splitBlankRe (rest.drop n)
      | none =>
        match splitBlankRe rest with
        | [] => [[c]]
        | p :: ps => (c :: p) :: ps
    else
      match splitBlankRe rest with
      | [] => [[c]]
      | p :: ps => (c :: p) :: ps
termination_by cs.length
decreasing_by
  · simp
    exact Nat.lt_succ_of_le (Nat.sub_le _ _)
  · simp
  · simp

/-- Python `str.lower()` (ASCII model). -/
def pyLower (cs : PyStr) : PyStr := cs.map Char.toLower

/-- Python `str.isupper()` (ASCII model): at least one cased character and no
lowercase character. -/
def pyIsUpper (cs : PyStr) : Bool :=
  cs.any (fun c => c.isUpper) && cs.all (fun c => !(c.isLower))

/-- Python `str.endswith(c)` for a single character. -/
def pyEndsWith (c : Char) (cs : PyStr) : Bool :=
  cs.getLast? = some c

/-- The character class `[\-\*\•\d]` of the bullet/numbered-list regex. -/
def isBulletChar (c : Char) : Bool :=
  c = '-' || c = '*' || c = '•' || c.isDigit

/-- Python `re.match(r'^\s*[\-\*\•\d]+[\.\)]\s+', line)` as a Boolean:
optional whitespace, then one or more bullet characters, then `.` or `)`,
then at least one whitespace character. -/
def listPatternMatch (line : PyStr) : Bool :=
  let afterSpace := line.dropWhile isPySpace
  let bullets := afterSpace.takeWhile isBulletChar
  let rest := afterSpace.dropWhile isBulletChar
  !(bullets.isEmpty) &&
    match rest with
    | c1 :: c2 :: _ => (c1 = '.' || c1 = ')') && isPySpace c2
    | _ => false

/-- Chunk metadata, `chunking_service.py`: the `metadata` dict attached to
each chunk, one variant per construction site. -/
inductive ChunkMeta where
  | fixedMeta (word_count char_count : ℕ)
  | paragraphMeta (word_count : ℕ)
  | multiSentenceMeta (sentence_count word_count : ℕ)
deriving DecidableEq

/-- The `Chunk` dataclass of `chunking_service.py`. -/
structure Chunk where
  text : PyStr
  index : ℕ
  start_char : ℕ
  end_char : ℕ
  metadata : ChunkMeta
deriving DecidableEq

/-- `ChunkingService._split_paragraphs`: split on blank lines, strip, drop
empties. -/
def split_paragraphs (text : PyStr) : List PyStr :=
  ((splitBlankRe text).map pyStrip).filter (fun p => !(p.isEmpty))

/-- `ChunkingService._split_sentences`: the NLTK tokenizer is external, so it
is a function parameter `sent_tokenize`; its output is stripped and empty
sentences are dropped, as in the source.  Instantiating `sent_tokenize` with
`splitPunct` gives exactly the source's documented punctuation fallback path
(`re.split(r'[.!?]+', text)` followed by the same strip/filter). -/
def split_sentences (sent_tokenize : PyStr → List PyStr) (text : PyStr) :
    List PyStr :=
  ((sent_tokenize text).map pyStrip).filter (fun s => !(s.isEmpty))

/-- `ChunkingService._calculate_complexity`. -/
def calculate_complexity (sent_tokenize : PyStr → List PyStr) (text : PyStr) :
    ℚ :=
  let sentences := split_sentences sent_tokenize text
  if sentences.isEmpty then 0
  else
    let avg_sentence_length : ℚ :=
      (((sentences.map (fun s => (pySplitL s).length)).sum : ℕ) : ℚ) /
        (sentences.length : ℚ)
    let length_score : ℚ := min (avg_sentence_length / 30) 1
    let words := pySplitL (pyLower text)
    let diversity_score : ℚ :=
      if words.isEmpty then 0
      else ((words.dedup.length : ℕ) : ℚ) / (words.length : ℚ)
    (length_score + diversity_score) / 2

/-- `ChunkingService._has_structural_elements`. -/
def has_structural_elements (text : PyStr) : Bool :=
  let lines := splitSep '\n' text
  (lines.any fun rawLine =>
    let line := pyStrip rawLine
    !(line.isEmpty) && decide ((pySplitL line).length < 10) &&
      (pyIsUpper line || pyEndsWith ':' line)) ||
  lines.any listPatternMatch

/-- `ChunkingService.decide_strategy`: `'dynamic'` if the complexity score
exceeds `0.6` or structural elements are present, else `'fixed'`.  The
`metadata` argument is only read for logging (`language`) and does not affect
the decision. -/
def decide_strategy (sent_tokenize : PyStr → List PyStr) (text : PyStr)
    (metadata : List (PyStr × PyStr)) : PyStr :=
  let complexity_score := calculate_complexity sent_tokenize text
  let has_structure := has_structural_elements text
  let _language := metadata.lookup ("language".toList)
  if (0.6 : ℚ) < complexity_score ∨ has_structure then "dynamic".toList
  else "fixed".toList

/-- The chunk built by one iteration of the `fixed_chunking` loop at word
position `start_idx` with running index `chunk_index`. -/
def mkFixedChunk (words : List PyStr) (size start_idx chunk_index : ℕ) :
    Chunk :=
  let chunk_words := (words.drop start_idx).take size
  let chunk_text := joinWordsL chunk_words
  let start_char := (joinWordsL (words.take start_idx)).length
  { text := chunk_text
    index := chunk_index
    start_char := start_char
    end_char := start_char + chunk_text.length
    metadata := .fixedMeta chunk_words.length chunk_text.length }

/-- The `while start_idx < len(words)` loop of
`ChunkingService.fixed_chunking`, with explicit fuel: `none` models the loop
failing to terminate within `fuel` iterations.  Each iteration emits the
window starting at `start_idx` and advances by `size - overlap`. -/
def fixedChunkingLoop (words : List PyStr) (size overlap : ℕ) :
    ℕ → ℕ → ℕ → Option (List Chunk)
  | fuel, start_idx, chunk_index =>
    if start_idx < words.length then
      match fuel with
      | 0 => none
      | fuel' + 1 =>
        (fixedChunkingLoop words size overlap fuel'
            (start_idx + (size - overlap)) (chunk_index + 1)).map
          (fun rest => mkFixedChunk words size start_idx chunk_index :: rest)
    else some []

/-- `ChunkingService.fixed_chunking` with the configured
`default_chunk_size`/`default_overlap` passed explicitly.  A fuel of
`words.length` iterations is sufficient whenever `overlap < size`; `none`
therefore means the source loop does not terminate. -/
def fixed_chunking (size overlap : ℕ) (text : PyStr) : Option (List Chunk) :=
  let words := pySplitL text
  if words.isEmpty then some []
  else fixedChunkingLoop words size overlap words.length 0 0

/-- The number of windows the fixed-chunking loop emits over `len` words when
started at word position `s` with advance step `a`: the count of `k` with
`s + k * a < len`, i.e. `⌈(len - s) / a⌉`. -/
def windowCount (len s a : ℕ) : ℕ := (len - s + a - 1) / a

/-- The mutable state of `ChunkingService.dynamic_chunking`: the accumulated
chunk list, `chunk_index` and `current_position`. -/
structure DynAcc where
  chunks : List Chunk
  chunk_index : ℕ
  current_position : ℕ
deriving DecidableEq

/-- Emitting one multi-sentence chunk in `dynamic_chunking` (both the inner
flush and the trailing flush build exactly this chunk and advance the
position by `len(chunk_text) + 1`). -/
def emitMulti (st : DynAcc) (current_chunk : List PyStr)
    (current_size : ℕ) : DynAcc :=
  let chunk_text := joinWordsL current_chunk
  { chunks := st.chunks ++
      [{ text := chunk_text
         index := st.chunk_index
         start_char := st.current_position
         end_char := st.current_position + chunk_text.length
         metadata := .multiSentenceMeta current_chunk.length current_size }]
    chunk_index := st.chunk_index + 1
    current_position := st.current_position + chunk_text.length + 1 }

/-- The `for sentence in sentences` loop of `dynamic_chunking`: before adding
a sentence that would push the buffer over `size` (and the buffer is
non-empty), flush the buffer; the remaining buffer is flushed at the end. -/
def sentenceLoop (size : ℕ) : List PyStr → List PyStr → ℕ → DynAcc → DynAcc
  | [], current_chunk, current_size, st =>
    if current_chunk.isEmpty then st
    else emitMulti st current_chunk current_size
  | sentence :: rest, current_chunk, current_size, st =>
    let sentence_size := (pySplitL sentence).length
    if size < current_size + sentence_size ∧ ¬ current_chunk.isEmpty then
      sentenceLoop size rest [sentence] sentence_size
        (emitMulti st current_chunk current_size)
    else
      sentenceLoop size rest (current_chunk ++ [sentence])
        (current_size + sentence_size) st

/-- The `for para in paragraphs` loop of `dynamic_chunking`. -/
def paraLoop (sent_tokenize : PyStr → List PyStr) (size : ℕ) :
    List PyStr → DynAcc → DynAcc
  | [], st => st
  | para :: rest, st =>
    if (pyStrip para).isEmpty then paraLoop sent_tokenize size rest st
    else if size < (pySplitL para).length then
      let sentences := split_sentences sent_tokenize para
      paraLoop sent_tokenize size rest (sentenceLoop size sentences [] 0 st)
    else
      paraLoop sent_tokenize size rest
        { chunks := st.chunks ++
            [{ text := para
               index := st.chunk_index
               start_char := st.current_position
               end_char := st.current_position + para.length
               metadata := .paragraphMeta (pySplitL para).length }]
          chunk_index := st.chunk_index + 1
          current_position := st.current_position + para.length + 1 }

/-- `ChunkingService.dynamic_chunking` with the configured chunk size passed
explicitly and the external NLTK sentence tokenizer as a parameter. -/
def dynamic_chunking (sent_tokenize : PyStr → List PyStr) (size : ℕ)
    (text : PyStr) : List Chunk :=
  (paraLoop sent_tokenize size (split_paragraphs text) ⟨[], 0, 0⟩).chunks

/-- Round-half-to-even on rationals, the tie-breaking rule of Python's
built-in `round`. -/
def roundHalfEven (q : ℚ) : ℤ :=
  if q - (⌊q⌋ : ℚ) < 1/2 then ⌊q⌋
  else if 1/2 < q - (⌊q⌋ : ℚ) then ⌊q⌋ + 1
  else if ⌊q⌋ % 2 = 0 then ⌊q⌋ else ⌊q⌋ + 1

/-- Python `round(q, ndigits)` modelled on rationals. -/
def pyRound (q : ℚ) (ndigits : ℕ) : ℚ :=
  ((roundHalfEven (q * (10 : ℚ) ^ ndigits) : ℤ) : ℚ) / (10 : ℚ) ^ ndigits

/-- A row of the `chunks` table (`app/models/document.py`), the fields read
by the retrieval pipeline. -/
structure ChunkRow where
  id : PyStr
  document_id : PyStr
  chunk_text : PyStr
  chunk_index : ℕ
deriving DecidableEq

/-- A row of the `documents` table, the fields read by the retrieval
pipeline. -/
structure DocumentRow where
  id : PyStr
  filename : PyStr
  language : PyStr
deriving DecidableEq

/-- The relational store.  Row lists are in table (insertion) order: a SQL
query without an `ORDER BY` clause returns rows in that order, not in the
order of any id set mentioned in a `WHERE ... IN` clause. -/
structure Database where
  chunks : List ChunkRow
  documents : List DocumentRow
deriving DecidableEq

/-- `StorageService.get_chunk_details`: `db.query(Chunk).filter(
Chunk.id.in_(chunk_ids)).all()` — an `IN` filter, so the rows come back in
table order, not in the order of `chunk_ids`. -/
def get_chunk_details (db : Database) (chunk_ids : List PyStr) :
    List ChunkRow :=
  db.chunks.filter (fun c => chunk_ids.contains c.id)

/-- `StorageService.get_document`: point lookup by id (`filter ... .first()`). -/
def get_document (db : Database) (document_id : PyStr) : Option DocumentRow :=
  (db.documents.filter (fun d => d.id = document_id)).head?

/-- The vector store's answer to `collection.query`: parallel arrays of ids
and distances (one inner list per query embedding), ordered by ascending
distance. -/
structure VectorResults where
  ids : List (List PyStr)
  distances : List (List ℚ)
deriving DecidableEq

/-- A single entry of the `results` list built by `RAGService.semantic_search`. -/
structure SearchResult where
  chunk_id : PyStr
  document_id : PyStr
  document_name : PyStr
  chunk_text : PyStr
  similarity_score : ℚ
  chunk_index : ℕ
deriving DecidableEq

/-- The response dict of `semantic_search`/`hybrid_search`. -/
structure SearchResponse where
  query : PyStr
  results : List SearchResult
  total_results : ℕ
  processing_time : ℚ
deriving DecidableEq

/-- `chunk_ids = vector_results['ids'][0] if vector_results['ids'] else []`. -/
def firstIds (vr : VectorResults) : List PyStr :=
  match vr.ids with | [] => [] | l :: _ => l

/-- `distances = vector_results['distances'][0] if vector_results['distances']
else []`. -/
def firstDistances (vr : VectorResults) : List ℚ :=
  match vr.distances with | [] => [] | l :: _ => l

/-- The result dict built for the chunk at enumeration position `ic.1`:
similarity is `1.0 - distance` at that position (defaulting the distance to
`1.0` past the end of the distance list), rounded to 4 decimals; the document
name falls back to `"Unknown"`. -/
def mkSearchResult (db : Database) (distances : List ℚ)
    (ic : ℕ × ChunkRow) : SearchResult :=
  { chunk_id := ic.2.id
    document_id := ic.2.document_id
    document_name :=
      match get_document db ic.2.document_id with
      | some d => d.filename
      | none => "Unknown".toList
    chunk_text := ic.2.chunk_text
    similarity_score := pyRound (1 - distances.getD ic.1 1) 4
    chunk_index := ic.2.chunk_index }

/-- `RAGService.semantic_search`, with the external collaborators explicit:
`vr` is the vector store's answer for the query embedding (already restricted
to `document_id` when one was passed) and `elapsed` the wall-clock delta
`time.time() - start_time`. -/
def semantic_search (db : Database) (vr : VectorResults) (query : PyStr)
    (elapsed : ℚ) : SearchResponse :=
  if (firstIds vr).isEmpty then
    { query := query, results := [], total_results := 0,
      processing_time := elapsed }
  else
    { query := query
      results := (get_chunk_details db (firstIds vr)).enum.map
        (mkSearchResult db (firstDistances vr))
      total_results := ((get_chunk_details db (firstIds vr)).enum.map
        (mkSearchResult db (firstDistances vr))).length
      processing_time := pyRound elapsed 3 }

/-- The optional filters consumed by `hybrid_search`. -/
structure Filters where
  document_id : Option PyStr
  language : Option PyStr

/-- The language predicate of `hybrid_search`'s filter loop:
`doc and doc.language == language_filter`. -/
def langMatches (db : Database) (language_filter : PyStr)
    (r : SearchResult) : Bool :=
  match get_document db r.document_id with
  | some doc => doc.language = language_filter
  | none => false

/-- `RAGService.hybrid_search`: run `semantic_search` (the vector store was
queried with `filters.document_id` when present, which is reflected in `vr`),
then, if a language filter is present, keep only results whose parent
document matches it. -/
def hybrid_search (db : Database) (vr : VectorResults) (query : PyStr)
    (elapsed : ℚ) (filters : Option Filters) : SearchResponse :=
  match filters with
  | none => semantic_search db vr query elapsed
  | some fs =>
    match fs.language with
    | none => semantic_search db vr query elapsed
    | some language_filter =>
      { semantic_search db vr query elapsed with
        results := (semantic_search db vr query elapsed).results.filter
          (langMatches db language_filter)
        total_results := ((semantic_search db vr query elapsed).results.filter
          (langMatches db language_filter)).length }

/-- Specification predicate for dynamic chunks: the chunk text is non-empty,
and if its word count exceeds `size` then the chunk is a single sentence of
some paragraph of the input (as produced by the sentence splitter). -/
def GoodChunk (sent_tokenize : PyStr → List PyStr) (size : ℕ)
    (paras : List PyStr) (c : Chunk) : Prop :=
  c.text ≠ [] ∧
    (size < (pySplitL c.text).length →
      ∃ p ∈ paras, c.text ∈ split_sentences sent_tokenize p)

/-- Specification predicate for the dynamic-chunking accumulator: every chunk
satisfies `end_char = start_char + len(text)`, no chunk starts after the
running position, and start offsets are non-decreasing. -/
def DynInv (st : DynAcc) : Prop :=
  (∀ c ∈ st.chunks, c.end_char = c.start_char + c.text.length ∧
    c.start_char ≤ st.current_position) ∧
  (st.chunks.map Chunk.start_char).Pairwise (· ≤ ·)

/-! ### Lemmas about the Python string primitives -/

theorem pySplitL_sound : ∀ (cs : PyStr), ∀ w ∈ pySplitL cs,
    w ≠ [] ∧ ∀ c ∈ w, isPySpace c = false := by
  intro cs
  induction cs using pySplitL.induct with
  | case1 => intro w hw; simp [pySplitL] at hw
  | case2 c rest hsp ih =>
    intro w hw
    rw [pySplitL] at hw
    rw [if_pos hsp] at hw
    exact ih w hw
  | case3 c rest hsp ih =>
    intro w hw
    rw [pySplitL] at hw
    rw [if_neg hsp] at hw
    rcases List.mem_cons.mp hw with hw | hw
    · subst hw
      refine ⟨?_, ?_⟩
      · have ht : List.takeWhile (fun x => !(isPySpace x)) (c :: rest)
            = c :: rest.takeWhile (fun x => !(isPySpace x)) :=
          List.takeWhile_cons_of_pos (by simp_all)
        rw [ht]
        exact List.cons_ne_nil _ _
      · intro x hx
        have hx2 := List.mem_takeWhile_imp hx
        simpa using hx2
    · exact ih w hw

theorem takeWhile_append_cons_neg {α : Type} (p : α → Bool) (y : α)
    (ys : List α) (h : p y = false) :
    ∀ l : List α, (l ++ y :: ys).takeWhile p = l.takeWhile p := by
  intro l
  induction l with
  | nil => simp [List.takeWhile_cons, h]
  | cons a l ih =>
    by_cases ha : p a
    · simp only [List.cons_append, List.takeWhile_cons_of_pos ha, ih]
    · simp only [List.cons_append, List.takeWhile_cons_of_neg ha]

theorem dropWhile_append_cons_neg {α : Type} (p : α → Bool) (y : α)
    (ys : List α) (h : p y = false) :
    ∀ l : List α, (l ++ y :: ys).dropWhile p = l.dropWhile p ++ y :: ys := by
  intro l
  induction l with
  | nil => simp [List.dropWhile_cons, h]
  | cons a l ih =>
    by_cases ha : p a
    · simp only [List.cons_append, List.dropWhile_cons_of_pos ha, ih]
    · simp only [List.cons_append, List.dropWhile_cons_of_neg ha]

theorem pySplitL_nil_eq : pySplitL [] = [] := by
  rw [pySplitL]

theorem pySplitL_cons_space (c : Char) (rest : PyStr) (h : isPySpace c = true) :
    pySplitL (c :: rest) = pySplitL rest := by
  rw [pySplitL, if_pos h]

theorem pySplitL_append_space (ys : PyStr) :
    ∀ xs : PyStr, pySplitL (xs ++ ' ' :: ys) = pySplitL xs ++ pySplitL ys := by
  intro xs
  induction xs using pySplitL.induct with
  | case1 =>
    rw [List.nil_append, pySplitL_cons_space ' ' ys (by decide),
      pySplitL_nil_eq, List.nil_append]
  | case2 c rest hsp ih =>
    rw [List.cons_append, pySplitL, if_pos hsp, ih, pySplitL, if_pos hsp]
  | case3 c rest hsp ih =>
    have h1 := takeWhile_append_cons_neg (fun x => !(isPySpace x)) ' ' ys
      (by decide) (c :: rest)
    have h2 := dropWhile_append_cons_neg (fun x => !(isPySpace x)) ' ' ys
      (by decide) (c :: rest)
    rw [List.cons_append, pySplitL, if_neg hsp, ← List.cons_append, h1, h2,
      ih, pySplitL, if_neg hsp]
    simp

theorem pySplitL_join : ∀ ws : List PyStr,
    pySplitL (joinWordsL ws) = (ws.map pySplitL).flatten := by
  intro ws
  induction ws with
  | nil => simp [joinWordsL, pySplitL]
  | cons w ws ih =>
    cases ws with
    | nil => simp [joinWordsL]
    | cons v vs =>
      rw [joinWordsL, pySplitL_append_space, ih]
      simp

theorem pySplitL_single (w : PyStr) (hne : w ≠ [])
    (hns : ∀ c ∈ w, isPySpace c = false) : pySplitL w = [w] := by
  cases w with
  | nil => exact absurd rfl hne
  | cons c rest =>
    have hc : isPySpace c = false := hns c (List.mem_cons_self _ _)
    rw [pySplitL, if_neg (by simp [hc])]
    have htake : (c :: rest).takeWhile (fun x => !(isPySpace x)) = c :: rest := by
      rw [List.takeWhile_eq_self_iff]
      intro x hx
      simp [hns x hx]
    have hdrop : (c :: rest).dropWhile (fun x => !(isPySpace x)) = [] := by
      rw [List.dropWhile_eq_nil_iff]
      intro x hx
      simp [hns x hx]
    rw [htake, hdrop, pySplitL_nil_eq]

theorem pySplitL_joinWordsL (ws : List PyStr)
    (h : ∀ w ∈ ws, w ≠ [] ∧ ∀ c ∈ w, isPySpace c = false) :
    pySplitL (joinWordsL ws) = ws := by
  rw [pySplitL_join]
  induction ws with
  | nil => simp
  | cons w ws ih =>
    have hw := h w (List.mem_cons_self _ _)
    rw [List.map_cons, List.flatten_cons, pySplitL_single w hw.1 hw.2]
    rw [ih (fun v hv => h v (List.mem_cons_of_mem _ hv))]
    rfl

theorem wordCount_joinWordsL (ws : List PyStr) :
    (pySplitL (joinWordsL ws)).length
      = (ws.map (fun s => (pySplitL s).length)).sum := by
  rw [pySplitL_join, List.length_flatten, List.map_map]
  rfl

theorem joinWordsL_ne_nil (w : PyStr) (ws : List PyStr) (h : w ≠ []) :
    joinWordsL (w :: ws) ≠ [] := by
  cases ws with
  | nil => simpa [joinWordsL]
  | cons v vs => simp [joinWordsL, h]

theorem joinWordsL_length : ∀ ws : List PyStr,
    (joinWordsL ws).length = (ws.map List.length).sum + (ws.length - 1) := by
  intro ws
  induction ws with
  | nil => simp [joinWordsL]
  | cons w ws ih =>
    cases ws with
    | nil => simp [joinWordsL]
    | cons v vs =>
      rw [joinWordsL]
      simp only [List.length_append, List.length_cons, ih, List.map_cons,
        List.sum_cons, List.length_cons]
      omega

theorem pyStrip_eq_nil_iff (cs : PyStr) :
    pyStrip cs = [] ↔ ∀ c ∈ cs, isPySpace c = true := by
  unfold pyStrip
  rw [List.reverse_eq_nil_iff, List.dropWhile_eq_nil_iff]
  constructor
  · intro h c hc
    rcases List.mem_append.mp
        ((List.takeWhile_append_dropWhile isPySpace cs) ▸ hc) with h1 | h1
    · exact List.mem_takeWhile_imp h1
    · exact h c (by simpa using h1)
  · intro h c hc
    exact h c ((List.dropWhile_sublist isPySpace).subset (by simpa using hc))

theorem mem_pyStrip {x : Char} {cs : PyStr} (h : x ∈ pyStrip cs) : x ∈ cs := by
  unfold pyStrip at h
  rw [List.mem_reverse] at h
  have h2 := (List.dropWhile_sublist isPySpace).subset h
  rw [List.mem_reverse] at h2
  exact (List.dropWhile_sublist isPySpace).subset h2

theorem mem_splitSep (sep : Char) :
    ∀ cs : PyStr, ∀ l ∈ splitSep sep cs, ∀ x ∈ l, x ∈ cs := by
  intro cs
  induction cs with
  | nil =>
    intro l hl x hx
    rw [show splitSep sep [] = [[]] from rfl, List.mem_singleton] at hl
    subst hl
    simp at hx
  | cons c rest ih =>
    intro l hl x hx
    rw [splitSep] at hl
    by_cases hc : c = sep
    · rw [if_pos hc] at hl
      rcases List.mem_cons.mp hl with h1 | h1
      · subst h1; simp at hx
      · exact List.mem_cons_of_mem _ (ih l h1 x hx)
    · rw [if_neg hc] at hl
      cases hsp : splitSep sep rest with
      | nil =>
        rw [hsp] at hl
        rcases List.mem_cons.mp hl with h1 | h1
        · subst h1
          rcases List.mem_singleton.mp hx with h2
          subst h2; exact List.mem_cons_self _ _
        · simp at h1
      | cons p ps =>
        rw [hsp] at hl
        rcases List.mem_cons.mp hl with h1 | h1
        · subst h1
          rcases List.mem_cons.mp hx with h2 | h2
          · subst h2; exact List.mem_cons_self _ _
          · exact List.mem_cons_of_mem _
              (ih p (hsp ▸ List.mem_cons_self _ _) x h2)
        · exact List.mem_cons_of_mem _
            (ih l (hsp ▸ List.mem_cons_of_mem _ h1) x hx)

theorem splitPunct_ne_nil : ∀ cs : PyStr, splitPunct cs ≠ [] := by
  intro cs
  induction cs using splitPunct.induct with
  | case1 => rw [splitPunct]; simp
  | case2 c rest hp ih => rw [splitPunct, if_pos hp]; simp
  | case3 c rest hp hnil ih => rw [splitPunct, if_neg hp, hnil]; simp
  | case4 c rest hp p ps hps ih => rw [splitPunct, if_neg hp, hps]; simp

theorem splitPunct_all_space : ∀ cs : PyStr,
    (∀ p ∈ splitPunct cs, ∀ c ∈ p, isPySpace c = true) →
    ∀ c ∈ cs, isPySpace c = true ∨ isSentPunct c = true := by
  intro cs
  induction cs using splitPunct.induct with
  | case1 => intro h c hc; simp at hc
  | case2 c rest hp ih =>
    intro h
    rw [splitPunct, if_pos hp] at h
    intro x hx
    rcases List.mem_cons.mp hx with h1 | h1
    · subst h1; exact Or.inr hp
    · rcases List.mem_append.mp
          ((List.takeWhile_append_dropWhile isSentPunct rest) ▸ h1) with h2 | h2
      · exact Or.inr (List.mem_takeWhile_imp h2)
      · exact ih (fun p hp2 => h p (List.mem_cons_of_mem _ hp2)) x h2
  | case3 c rest hp hnil ih => exact absurd hnil (splitPunct_ne_nil rest)
  | case4 c rest hp p ps hps ih =>
    intro h
    rw [splitPunct, if_neg hp, hps] at h
    simp only at h
    intro x hx
    rcases List.mem_cons.mp hx with h1 | h1
    · subst h1
      exact Or.inl (h (x :: p) (List.mem_cons_self _ _) x
        (List.mem_cons_self _ _))
    · refine ih ?_ x h1
      rw [hps]
      intro q hq y hy
      rcases List.mem_cons.mp hq with h2 | h2
      · subst h2
        exact h (c :: q) (List.mem_cons_self _ _) y (List.mem_cons_of_mem _ hy)
      · exact h q (List.mem_cons_of_mem _ h2) y hy

/-! ### The fixed-chunking loop: closed form and divergence -/

theorem windowCount_eq_zero (len s a : ℕ) (ha : 1 ≤ a) (hs : len ≤ s) :
    windowCount len s a = 0 := by
  unfold windowCount
  have h1 : len - s = 0 := by omega
  rw [h1]
  exact Nat.div_eq_of_lt (by omega)

theorem windowCount_succ (len s a : ℕ) (ha : 1 ≤ a) (hs : s < len) :
    windowCount len s a = windowCount len (s + a) a + 1 := by
  unfold windowCount
  have h1 : len - s + a - 1 = (len - s - 1) + a := by omega
  rw [h1, Nat.add_div_right _ (by omega)]
  congr 1
  by_cases hd : len ≤ s + a
  · have h2 : len - (s + a) = 0 := by omega
    rw [h2]
    rw [Nat.div_eq_of_lt (by omega), Nat.div_eq_of_lt (by omega)]
  · have h3 : len - (s + a) + a - 1 = len - s - 1 := by omega
    rw [h3]

theorem windowCount_pos (len a : ℕ) (ha : 1 ≤ a) (hlen : 1 ≤ len) :
    1 ≤ windowCount len 0 a := by
  unfold windowCount
  rw [Nat.le_div_iff_mul_le (by omega)]
  omega

theorem fixedChunkingLoop_eq (words : List PyStr) (size overlap : ℕ)
    (hov : overlap < size) :
    ∀ fuel s i, words.length ≤ s + fuel * (size - overlap) →
    fixedChunkingLoop words size overlap fuel s i =
      some ((List.range (windowCount words.length s (size - overlap))).map
        (fun k => mkFixedChunk words size (s + k * (size - overlap)) (i + k))) := by
  intro fuel
  induction fuel with
  | zero =>
    intro s i h
    have hs : ¬ s < words.length := by omega
    rw [fixedChunkingLoop, if_neg hs,
      windowCount_eq_zero _ _ _ (by omega) (by omega)]
    simp
  | succ fuel ih =>
    intro s i h
    by_cases hs : s < words.length
    · rw [fixedChunkingLoop, if_pos hs]
      have hrec : words.length ≤ s + (size - overlap) + fuel * (size - overlap) := by
        have hm : (fuel + 1) * (size - overlap)
            = fuel * (size - overlap) + (size - overlap) := by
          rw [Nat.add_mul, Nat.one_mul]
        omega
      rw [ih (s + (size - overlap)) (i + 1) hrec]
      rw [windowCount_succ _ _ _ (by omega) hs, List.range_succ_eq_map]
      simp only [List.map_cons, List.map_map]
      have hf0 : mkFixedChunk words size (s + 0 * (size - overlap)) (i + 0)
          = mkFixedChunk words size s i := by norm_num
      have hfun : ((fun k => mkFixedChunk words size (s + k * (size - overlap)) (i + k))
            ∘ Nat.succ)
          = (fun k => mkFixedChunk words size
              (s + (size - overlap) + k * (size - overlap)) (i + 1 + k)) := by
        funext k
        show mkFixedChunk words size (s + Nat.succ k * (size - overlap)) (i + Nat.succ k)
            = mkFixedChunk words size
              (s + (size - overlap) + k * (size - overlap)) (i + 1 + k)
        rw [Nat.succ_mul, Nat.succ_eq_add_one]
        have e1 : s + (k * (size - overlap) + (size - overlap))
            = s + (size - overlap) + k * (size - overlap) := by omega
        have e2 : i + (k + 1) = i + 1 + k := by omega
        rw [e1, e2]
      rw [hf0, hfun, Option.map_some']
    · rw [fixedChunkingLoop, if_neg hs,
        windowCount_eq_zero _ _ _ (by omega) (by omega)]
      simp

theorem fixed_chunking_eq (size overlap : ℕ) (hov : overlap < size)
    (text : PyStr) :
    fixed_chunking size overlap text =
      some ((List.range
          (windowCount (pySplitL text).length 0 (size - overlap))).map
        (fun k => mkFixedChunk (pySplitL text) size (k * (size - overlap)) k)) := by
  unfold fixed_chunking
  by_cases hw : (pySplitL text).isEmpty
  · rw [if_pos hw]
    have h0 : (pySplitL text).length = 0 := by
      rwa [List.isEmpty_iff, ← List.length_eq_zero] at hw
    rw [h0, windowCount_eq_zero _ _ _ (by omega) (by omega)]
    simp
  · rw [if_neg hw]
    have h1 := fixedChunkingLoop_eq (pySplitL text) size overlap hov
      (pySplitL text).length 0 0
      (by
        have h2 : (pySplitL text).length ≤ (pySplitL text).length * (size - overlap) :=
          Nat.le_mul_of_pos_right _ (by omega)
        omega)
    rw [h1]
    congr 1
    refine List.map_congr_left ?_
    intro k _
    simp

theorem fixedChunkingLoop_none_of_le (words : List PyStr) (size overlap : ℕ)
    (hov : size ≤ overlap) (hw : words ≠ []) :
    ∀ fuel i, fixedChunkingLoop words size overlap fuel 0 i = none := by
  have hlen : 0 < words.length := List.length_pos.mpr hw
  have hstep : size - overlap = 0 := by omega
  intro fuel
  induction fuel with
  | zero => intro i; rw [fixedChunkingLoop, if_pos hlen]
  | succ fuel ih =>
    intro i
    rw [fixedChunkingLoop, if_pos hlen]
    simp only [hstep, Nat.add_zero]
    rw [ih (i + 1)]
    rfl

/-! ### Rounding -/

theorem roundHalfEven_nonneg (q : ℚ) (h : 0 ≤ q) : 0 ≤ roundHalfEven q := by
  unfold roundHalfEven
  have hf : 0 ≤ ⌊q⌋ := Int.floor_nonneg.mpr h
  split_ifs <;> omega

theorem roundHalfEven_le (q : ℚ) (m : ℤ) (h : q ≤ (m : ℚ)) :
    roundHalfEven q ≤ m := by
  unfold roundHalfEven
  have hfm : ⌊q⌋ ≤ m := by
    have h2 := Int.floor_le_floor h
    rwa [Int.floor_intCast] at h2
  have hfq : (⌊q⌋ : ℚ) ≤ q := Int.floor_le q
  split_ifs with h1 h2 h3
  · exact hfm
  · have h4 : (⌊q⌋ : ℚ) + 1/2 < q := by
      have h5 := h2
      linarith
    have h5 : (⌊q⌋ : ℚ) < (m : ℚ) := by linarith
    have h6 : ⌊q⌋ < m := by exact_mod_cast h5
    omega
  · exact hfm
  · have h4 : (⌊q⌋ : ℚ) + 1/2 ≤ q := by
      have h5 : ¬ q - (⌊q⌋ : ℚ) < 1/2 := h1
      linarith [not_lt.mp h5]
    have h5 : (⌊q⌋ : ℚ) < (m : ℚ) := by linarith
    have h6 : ⌊q⌋ < m := by exact_mod_cast h5
    omega

theorem pyRound_nonneg (q : ℚ) (n : ℕ) (h : 0 ≤ q) : 0 ≤ pyRound q n := by
  unfold pyRound
  apply div_nonneg
  · exact_mod_cast roundHalfEven_nonneg _ (by positivity)
  · positivity

theorem pyRound_le_one (q : ℚ) (n : ℕ) (h : q ≤ 1) : pyRound q n ≤ 1 := by
  unfold pyRound
  rw [div_le_one (by positivity)]
  have h1 : q * (10 : ℚ) ^ n ≤ ((10 ^ n : ℤ) : ℚ) := by
    push_cast
    nlinarith [pow_pos (show (0:ℚ) < 10 by norm_num) n]
  have h2 := roundHalfEven_le _ _ h1
  calc ((roundHalfEven (q * (10 : ℚ) ^ n) : ℤ) : ℚ)
      ≤ ((10 ^ n : ℤ) : ℚ) := by exact_mod_cast h2
    _ = (10 : ℚ) ^ n := by push_cast; ring

theorem pyRound_zero_eq (n : ℕ) : pyRound 0 n = 0 := by
  unfold pyRound roundHalfEven
  norm_num

theorem roundHalfEven_intCast (m : ℤ) : roundHalfEven (m : ℚ) = m := by
  unfold roundHalfEven
  rw [Int.floor_intCast]
  rw [if_pos (by norm_num)]

/-! ### Dynamic chunking: invariants -/

theorem mem_split_sentences_ne_nil (sent_tokenize : PyStr → List PyStr)
    (text : PyStr) : ∀ s ∈ split_sentences sent_tokenize text, s ≠ [] := by
  intro s hs
  unfold split_sentences at hs
  have h2 := (List.mem_filter.mp hs).2
  simpa [List.isEmpty_iff] using h2

theorem joinWordsL_single (w : PyStr) : joinWordsL [w] = w := rfl

theorem emitMulti_good (sent_tokenize : PyStr → List PyStr) (size : ℕ)
    (paras : List PyStr) (para : PyStr) (hpara : para ∈ paras)
    (st : DynAcc) (cur : List PyStr) (curSize : ℕ)
    (hcur : ∀ s ∈ cur, s ∈ split_sentences sent_tokenize para)
    (hsum : curSize = (cur.map (fun s => (pySplitL s).length)).sum)
    (hsingle : size < curSize → ∃ s, cur = [s])
    (hne : cur ≠ [])
    (hst : ∀ c ∈ st.chunks, GoodChunk sent_tokenize size paras c) :
    ∀ c ∈ (emitMulti st cur curSize).chunks,
      GoodChunk sent_tokenize size paras c := by
  intro c hc
  unfold emitMulti at hc
  simp only at hc
  rcases List.mem_append.mp hc with hold | hnew
  · exact hst c hold
  · rw [List.mem_singleton] at hnew
    subst hnew
    constructor
    · show joinWordsL cur ≠ []
      cases cur with
      | nil => exact absurd rfl hne
      | cons s rest =>
        exact joinWordsL_ne_nil s rest
          (mem_split_sentences_ne_nil sent_tokenize para s
            (hcur s (List.mem_cons_self _ _)))
    · show size < (pySplitL (joinWordsL cur)).length → _
      intro hbig
      have hwc : (pySplitL (joinWordsL cur)).length = curSize := by
        rw [wordCount_joinWordsL, ← hsum]
      rw [hwc] at hbig
      obtain ⟨s, hcs⟩ := hsingle hbig
      subst hcs
      refine ⟨para, hpara, ?_⟩
      show joinWordsL [s] ∈ _
      rw [joinWordsL_single]
      exact hcur s (List.mem_cons_self _ _)

theorem sentenceLoop_good (sent_tokenize : PyStr → List PyStr) (size : ℕ)
    (paras : List PyStr) (para : PyStr) (hpara : para ∈ paras) :
    ∀ (sentences cur : List PyStr) (curSize : ℕ) (st : DynAcc),
    (∀ s ∈ sentences, s ∈ split_sentences sent_tokenize para) →
    (∀ s ∈ cur, s ∈ split_sentences sent_tokenize para) →
    curSize = (cur.map (fun s => (pySplitL s).length)).sum →
    (size < curSize → ∃ s, cur = [s]) →
    (∀ c ∈ st.chunks, GoodChunk sent_tokenize size paras c) →
    ∀ c ∈ (sentenceLoop size sentences cur curSize st).chunks,
      GoodChunk sent_tokenize size paras c := by
  intro sentences
  induction sentences with
  | nil =>
    intro cur curSize st hsent hcur hsum hsingle hst
    rw [sentenceLoop]
    by_cases he : cur.isEmpty
    · rw [if_pos he]; exact hst
    · rw [if_neg he]
      exact emitMulti_good sent_tokenize size paras para hpara st cur curSize
        hcur hsum hsingle (by simpa [List.isEmpty_iff] using he) hst
  | cons sentence rest ih =>
    intro cur curSize st hsent hcur hsum hsingle hst
    rw [sentenceLoop]
    by_cases hcond : size < curSize + (pySplitL sentence).length ∧
        ¬ cur.isEmpty
    · rw [if_pos hcond]
      refine ih [sentence] (pySplitL sentence).length _ ?_ ?_ ?_ ?_ ?_
      · intro s hs; exact hsent s (List.mem_cons_of_mem _ hs)
      · intro s hs
        rw [List.mem_singleton.mp hs]
        exact hsent sentence (List.mem_cons_self _ _)
      · simp
      · intro _; exact ⟨sentence, rfl⟩
      · exact emitMulti_good sent_tokenize size paras para hpara st cur curSize
          hcur hsum hsingle (by simpa [List.isEmpty_iff] using hcond.2) hst
    · rw [if_neg hcond]
      refine ih (cur ++ [sentence]) (curSize + (pySplitL sentence).length) st
        ?_ ?_ ?_ ?_ hst
      · intro s hs; exact hsent s (List.mem_cons_of_mem _ hs)
      · intro s hs
        rcases List.mem_append.mp hs with h1 | h1
        · exact hcur s h1
        · rw [List.mem_singleton.mp h1]
          exact hsent sentence (List.mem_cons_self _ _)
      · rw [List.map_append, List.sum_append, ← hsum]
        simp
      · intro hbig
        rcases Classical.em (size < curSize + (pySplitL sentence).length) with h1 | h1
        · have hcure : cur.isEmpty := by
            by_contra h2
            exact hcond ⟨h1, h2⟩
          have hcure2 : cur = [] := by simpa [List.isEmpty_iff] using hcure
          subst hcure2
          exact ⟨sentence, rfl⟩
        · exact absurd hbig h1

theorem paraLoop_good (sent_tokenize : PyStr → List PyStr) (size : ℕ)
    (paras : List PyStr) :
    ∀ (ps : List PyStr) (st : DynAcc),
    (∀ p ∈ ps, p ∈ paras) →
    (∀ c ∈ st.chunks, GoodChunk sent_tokenize size paras c) →
    ∀ c ∈ (paraLoop sent_tokenize size ps st).chunks,
      GoodChunk sent_tokenize size paras c := by
  intro ps
  induction ps with
  | nil => intro st _ hst; rw [paraLoop]; exact hst
  | cons para rest ih =>
    intro st hsub hst
    rw [paraLoop]
    by_cases he : (pyStrip para).isEmpty
    · rw [if_pos he]
      exact ih st (fun p hp => hsub p (List.mem_cons_of_mem _ hp)) hst
    · rw [if_neg he]
      by_cases hbig : size < (pySplitL para).length
      · rw [if_pos hbig]
        refine ih _ (fun p hp => hsub p (List.mem_cons_of_mem _ hp)) ?_
        exact sentenceLoop_good sent_tokenize size paras para
          (hsub para (List.mem_cons_self _ _))
          (split_sentences sent_tokenize para) [] 0 st
          (fun s hs => hs) (by simp) (by simp) (by omega) hst
      · rw [if_neg hbig]
        refine ih _ (fun p hp => hsub p (List.mem_cons_of_mem _ hp)) ?_
        intro c hc
        simp only at hc
        rcases List.mem_append.mp hc with hold | hnew
        · exact hst c hold
        · have hceq := List.mem_singleton.mp hnew
          subst hceq
          constructor
          · intro hpe
            have hp2 : para = [] := hpe
            rw [hp2] at he
            exact he rfl
          · intro h2
            exact absurd h2 hbig

theorem dynamic_chunking_good (sent_tokenize : PyStr → List PyStr) (size : ℕ)
    (text : PyStr) :
    ∀ c ∈ dynamic_chunking sent_tokenize size text,
      GoodChunk sent_tokenize size (split_paragraphs text) c := by
  unfold dynamic_chunking
  exact paraLoop_good sent_tokenize size (split_paragraphs text)
    (split_paragraphs text) ⟨[], 0, 0⟩ (fun p hp => hp) (by simp)

theorem DynInv_append (st : DynAcc) (t : PyStr) (idx : ℕ) (meta : ChunkMeta)
    (hinv : DynInv st) :
    DynInv ⟨st.chunks ++
        [⟨t, idx, st.current_position, st.current_position + t.length, meta⟩],
      st.chunk_index + 1, st.current_position + t.length + 1⟩ := by
  obtain ⟨h1, h2⟩ := hinv
  constructor
  · intro c hc
    rcases List.mem_append.mp hc with hold | hnew
    · exact ⟨(h1 c hold).1, by
        have := (h1 c hold).2
        simp only
        omega⟩
    · rw [List.mem_singleton] at hnew
      subst hnew
      exact ⟨rfl, by simp only; omega⟩
  · simp only [List.map_append, List.map_cons, List.map_nil]
    rw [List.pairwise_append]
    refine ⟨h2, by simp, ?_⟩
    intro a ha b hb
    rw [List.mem_singleton] at hb
    subst hb
    obtain ⟨c, hc, hca⟩ := List.mem_map.mp ha
    rw [← hca]
    exact (h1 c hc).2

theorem emitMulti_inv (st : DynAcc) (cur : List PyStr) (curSize : ℕ)
    (h : DynInv st) : DynInv (emitMulti st cur curSize) :=
  DynInv_append st (joinWordsL cur) st.chunk_index
    (.multiSentenceMeta cur.length curSize) h

theorem sentenceLoop_inv (size : ℕ) :
    ∀ (sentences cur : List PyStr) (curSize : ℕ) (st : DynAcc),
    DynInv st → DynInv (sentenceLoop size sentences cur curSize st) := by
  intro sentences
  induction sentences with
  | nil =>
    intro cur curSize st h
    rw [sentenceLoop]
    by_cases he : cur.isEmpty
    · rw [if_pos he]; exact h
    · rw [if_neg he]; exact emitMulti_inv st cur curSize h
  | cons sentence rest ih =>
    intro cur curSize st h
    rw [sentenceLoop]
    by_cases hcond : size < curSize + (pySplitL sentence).length ∧
        ¬ cur.isEmpty
    · rw [if_pos hcond]
      exact ih _ _ _ (emitMulti_inv st cur curSize h)
    · rw [if_neg hcond]
      exact ih _ _ _ h

theorem paraLoop_inv (sent_tokenize : PyStr → List PyStr) (size : ℕ) :
    ∀ (ps : List PyStr) (st : DynAcc),
    DynInv st → DynInv (paraLoop sent_tokenize size ps st) := by
  intro ps
  induction ps with
  | nil => intro st h; rw [paraLoop]; exact h
  | cons para rest ih =>
    intro st h
    rw [paraLoop]
    by_cases he : (pyStrip para).isEmpty
    · rw [if_pos he]; exact ih st h
    · rw [if_neg he]
      by_cases hbig : size < (pySplitL para).length
      · rw [if_pos hbig]
        exact ih _ (sentenceLoop_inv size _ [] 0 st h)
      · rw [if_neg hbig]
        exact ih _ (DynInv_append st para st.chunk_index
          (.paragraphMeta (pySplitL para).length) h)

theorem dynamic_chunking_inv (sent_tokenize : PyStr → List PyStr) (size : ℕ)
    (text : PyStr) :
    (∀ c ∈ dynamic_chunking sent_tokenize size text,
      c.end_char = c.start_char + c.text.length) ∧
    ((dynamic_chunking sent_tokenize size text).map Chunk.start_char).Pairwise
      (· ≤ ·) := by
  have h := paraLoop_inv sent_tokenize size (split_paragraphs text) ⟨[], 0, 0⟩
    (by constructor <;> simp)
  exact ⟨fun c hc => (h.1 c hc).1, h.2⟩

/-! ### Fixed chunking: offsets and ordering -/

theorem joinWordsL_take_mono (l : List PyStr) (m n : ℕ) (h : m ≤ n) :
    (joinWordsL (l.take m)).length ≤ (joinWordsL (l.take n)).length := by
  rw [joinWordsL_length, joinWordsL_length]
  have hsub : List.Sublist (l.take m) (l.take n) := by
    have h1 : (l.take n).take m = l.take m := by
      rw [List.take_take, min_eq_left h]
    rw [← h1]
    exact List.take_sublist m (l.take n)
  have hsum : ((l.take m).map List.length).sum ≤ ((l.take n).map List.length).sum :=
    List.Sublist.sum_le_sum (hsub.map List.length) (fun a _ => Nat.zero_le a)
  have hlen : (l.take m).length ≤ (l.take n).length := hsub.length_le
  omega

theorem fixed_chunking_offsets (size overlap : ℕ) (text : PyStr)
    (chunks : List Chunk)
    (h : fixed_chunking size overlap text = some chunks) :
    (∀ c ∈ chunks, c.end_char = c.start_char + c.text.length) ∧
    (chunks.map Chunk.start_char).Pairwise (· ≤ ·) := by
  by_cases hov : overlap < size
  · rw [fixed_chunking_eq size overlap hov text] at h
    have hchunks := Option.some.inj h
    subst hchunks
    constructor
    · intro c hc
      obtain ⟨k, _, hk⟩ := List.mem_map.mp hc
      rw [← hk]
      rfl
    · rw [List.map_map, List.pairwise_map]
      refine (List.sorted_lt_range _).imp ?_
      intro a b hab
      show (joinWordsL ((pySplitL text).take (a * (size - overlap)))).length
        ≤ (joinWordsL ((pySplitL text).take (b * (size - overlap)))).length
      exact joinWordsL_take_mono _ _ _
        (Nat.mul_le_mul_right _ (Nat.le_of_lt hab))
  · unfold fixed_chunking at h
    by_cases hw : (pySplitL text).isEmpty
    · rw [if_pos hw] at h
      have hchunks := Option.some.inj h
      subst hchunks
      exact ⟨by simp, by simp⟩
    · rw [if_neg hw] at h
      rw [fixedChunkingLoop_none_of_le (pySplitL text) size overlap (by omega)
        (by simpa [List.isEmpty_iff] using hw) _ 0] at h
      cases h

/-! ### Retrieval -/

theorem enum_getElem? {α : Type} (l : List α) (i : ℕ) :
    l.enum[i]? = l[i]?.map (fun a => (i, a)) := by
  rw [List.enum_eq_enumFrom]
  rw [List.getElem?_enumFrom]
  simp

theorem semantic_search_total (db : Database) (vr : VectorResults)
    (query : PyStr) (elapsed : ℚ) :
    (semantic_search db vr query elapsed).total_results
      = (semantic_search db vr query elapsed).results.length := by
  unfold semantic_search
  by_cases h : (firstIds vr).isEmpty
  · rw [if_pos h]
    rfl
  · rw [if_neg h]

/-! ### Claims -/

/-- C2: the advance step of `fixed_chunking`'s `while` loop is
`size - overlap`; the source guards `overlap < size` nowhere (neither
`__init__` nor `fixed_chunking` validates it), so with
`default_chunk_size = default_overlap = 2` the loop never terminates on the
one-word input `"a"`: the loop model returns `none` (fuel exhausted) for
every fuel bound, and so does `fixed_chunking` itself, instead of the
configuration being rejected as an error. -/
theorem C2_overlap_ge_size_never_terminates :
    (∀ fuel i, fixedChunkingLoop (pySplitL ("a".toList)) 2 2 fuel 0 i = none) ∧
    fixed_chunking 2 2 ("a".toList) = none := by
  have hne : pySplitL ("a".toList) ≠ [] := by
    simp +decide [pySplitL, isPySpace]
  constructor
  · exact fixedChunkingLoop_none_of_le _ 2 2 (by omega) hne
  · show (if (pySplitL ("a".toList)).isEmpty then some []
        else fixedChunkingLoop (pySplitL ("a".toList)) 2 2
          (pySplitL ("a".toList)).length 0 0) = none
    rw [if_neg (by simpa [List.isEmpty_iff] using hne)]
    exact fixedChunkingLoop_none_of_le _ 2 2 (by omega) hne _ 0

/-- C3 counterexample: when the vector store returns no ids, the source
returns `time.time() - start_time` raw (line 60 of `rag_service.py`), without
the `round(..., 3)` applied on the non-empty path; at elapsed time `1/3` the
response carries `1/3`, which is not equal to its 3-decimal rounding
`0.333`. -/
theorem C3_counterexample :
    (semantic_search ⟨[], []⟩ ⟨[], []⟩ ("q".toList) (1/3)).processing_time
        = 1/3 ∧
    pyRound (1/3) 3 = 333/1000 ∧
    (1/3 : ℚ) ≠ 333/1000 := by
  refine ⟨rfl, ?_, by norm_num⟩
  have hfloor : ⌊(1/3 : ℚ) * (10 : ℚ) ^ 3⌋ = 333 := by
    rw [show (1/3 : ℚ) * (10 : ℚ) ^ 3 = 1000/3 by norm_num]
    rw [Int.floor_eq_iff]
    norm_num
  unfold pyRound roundHalfEven
  rw [hfloor]
  rw [if_pos (by norm_num)]
  norm_num

/-- C3 (amended): whenever the vector store returns no ids, `semantic_search`
returns the query, an empty results list, `total_results = 0` and, as
`processing_time`, the raw elapsed wall-clock time (this branch does not
round to 3 decimals), and it does not raise. -/
theorem C3_empty_ids_response (db : Database) (vr : VectorResults)
    (query : PyStr) (elapsed : ℚ) (h : firstIds vr = []) :
    semantic_search db vr query elapsed =
      { query := query, results := [], total_results := 0,
        processing_time := elapsed } := by
  unfold semantic_search
  rw [if_pos (by simp [h])]

theorem C3_empty_ids_response_witness :
    firstIds ⟨[], []⟩ = [] ∧
    semantic_search ⟨[], []⟩ ⟨[], []⟩ ("q".toList) (1/2) =
      { query := "q".toList, results := [], total_results := 0,
        processing_time := 1/2 } :=
  ⟨rfl, C3_empty_ids_response ⟨[], []⟩ ⟨[], []⟩ ("q".toList) (1/2) rfl⟩

/-- C1 (the code evaluated at the failing input): two chunk rows are stored
in table order `[A, B]`; the vector store answers ids `["B", "A"]` ordered by
ascending distance `[0.1, 0.2]`.  `get_chunk_details` is a SQL `IN` query
(`Chunk.id.in_(chunk_ids)`) and returns the rows in table order `[A, B]`, and
`semantic_search` pairs the distances positionally, so the response lists
chunk A first, carrying the similarity `1 - 0.1` that belongs to B: the i-th
result does not correspond to the i-th returned id, and the vector-store
ordering is not preserved. -/
theorem C1_ordering_not_preserved :
    (semantic_search
        ⟨[⟨"A".toList, "D".toList, "ta".toList, 0⟩,
          ⟨"B".toList, "D".toList, "tb".toList, 1⟩],
         [⟨"D".toList, "doc.txt".toList, "english".toList⟩]⟩
        ⟨[["B".toList, "A".toList]], [[1/10, 2/10]]⟩
        ("q".toList) 0).results.map
        (fun r => (r.chunk_id, r.similarity_score))
      = [("A".toList, 9/10), ("B".toList, 4/5)] ∧
    firstIds ⟨[["B".toList, "A".toList]], [[1/10, 2/10]]⟩
      = ["B".toList, "A".toList] := by
  have h1 : pyRound (1 - 1/10) 4 = 9/10 := by
    unfold pyRound
    rw [show (1 - 1/10 : ℚ) * (10 : ℚ) ^ 4 = ((9000 : ℤ) : ℚ) by norm_num]
    rw [roundHalfEven_intCast]
    norm_num
  have h2 : pyRound (1 - 2/10) 4 = 4/5 := by
    unfold pyRound
    rw [show (1 - 2/10 : ℚ) * (10 : ℚ) ^ 4 = ((8000 : ℤ) : ℚ) by norm_num]
    rw [roundHalfEven_intCast]
    norm_num
  refine ⟨?_, rfl⟩
  rw [show (9/10 : ℚ) = pyRound (1 - 1/10) 4 from h1.symm,
      show (4/5 : ℚ) = pyRound (1 - 2/10) 4 from h2.symm]
  simp +decide [semantic_search, firstIds, firstDistances, get_chunk_details,
    get_document, mkSearchResult, List.enum, List.enumFrom]

/-- C7: in `semantic_search`, the result at rank `i` carries
`similarity_score = round(1.0 - distances[i], 4)`, with the distance
defaulting to `1.0` when rank `i` has no distance (giving similarity exactly
`0.0`); and when all returned distances lie in `[0, 1]`, every similarity
score lies in `[0, 1]`. -/
theorem C7_similarity_scores (db : Database) (vr : VectorResults)
    (query : PyStr) (elapsed : ℚ) (i : ℕ) (r : SearchResult)
    (h : (semantic_search db vr query elapsed).results[i]? = some r) :
    r.similarity_score = pyRound (1 - (firstDistances vr).getD i 1) 4 ∧
    ((firstDistances vr).length ≤ i → r.similarity_score = 0) ∧
    ((∀ d ∈ firstDistances vr, 0 ≤ d ∧ d ≤ 1) →
      0 ≤ r.similarity_score ∧ r.similarity_score ≤ 1) := by
  have hmain : r.similarity_score
      = pyRound (1 - (firstDistances vr).getD i 1) 4 := by
    unfold semantic_search at h
    by_cases he : (firstIds vr).isEmpty
    · rw [if_pos he] at h
      simp at h
    · rw [if_neg he] at h
      have h2 : ((get_chunk_details db (firstIds vr)).enum.map
          (mkSearchResult db (firstDistances vr)))[i]? = some r := h
      rw [List.getElem?_map, enum_getElem?] at h2
      cases hc : (get_chunk_details db (firstIds vr))[i]? with
      | none => rw [hc] at h2; simp at h2
      | some chunk =>
        rw [hc] at h2
        simp only [Option.map_some'] at h2
        have h3 := Option.some.inj h2
        rw [← h3]
        rfl
  refine ⟨hmain, ?_, ?_⟩
  · intro hlen
    rw [hmain, List.getD_eq_getElem?_getD, List.getElem?_eq_none hlen]
    rw [show (1 : ℚ) - Option.getD none 1 = 0 by norm_num [Option.getD]]
    exact pyRound_zero_eq 4
  · intro hd
    rw [hmain]
    by_cases hi : i < (firstDistances vr).length
    · have hmem : (firstDistances vr).getD i 1 ∈ firstDistances vr := by
        rw [List.getD_eq_getElem?_getD, List.getElem?_eq_getElem hi]
        exact List.getElem_mem hi
      obtain ⟨hd0, hd1⟩ := hd _ hmem
      refine ⟨pyRound_nonneg _ _ (by linarith), pyRound_le_one _ _ (by linarith)⟩
    · rw [List.getD_eq_getElem?_getD, List.getElem?_eq_none (by omega)]
      rw [show (1 : ℚ) - Option.getD none 1 = 0 by norm_num [Option.getD]]
      rw [pyRound_zero_eq 4]
      norm_num

theorem C7_similarity_scores_witness :
    ((semantic_search ⟨[⟨"X".toList, "D".toList, "t".toList, 0⟩], []⟩
        ⟨[["X".toList]], [[1/2]]⟩ ("q".toList) 0).results[0]?
      = some ⟨"X".toList, "D".toList, "Unknown".toList, "t".toList,
          pyRound (1 - 1/2) 4, 0⟩) ∧
    (⟨"X".toList, "D".toList, "Unknown".toList, "t".toList,
        pyRound (1 - 1/2) 4, 0⟩ : SearchResult).similarity_score
      = pyRound (1 - (firstDistances ⟨[["X".toList]], [[1/2]]⟩).getD 0 1) 4 := by
  have h : (semantic_search ⟨[⟨"X".toList, "D".toList, "t".toList, 0⟩], []⟩
      ⟨[["X".toList]], [[1/2]]⟩ ("q".toList) 0).results[0]?
      = some ⟨"X".toList, "D".toList, "Unknown".toList, "t".toList,
          pyRound (1 - 1/2) 4, 0⟩ := by
    simp +decide [semantic_search, firstIds, firstDistances, get_chunk_details,
      get_document, mkSearchResult, List.enum, List.enumFrom]
  exact ⟨h, (C7_similarity_scores _ _ _ _ _ _ h).1⟩

/-- C8: `hybrid_search` filters the `semantic_search` result list in place
(filter-after-retrieve): its result list is a sublist of the semantic one
(never backfilled from the vector store), its `total_results` never exceeds
the semantic count for the same query and `top_k`, and a language filter
matching no result yields `total_results = 0` without an error. -/
theorem C8_hybrid_filters_semantic (db : Database) (vr : VectorResults)
    (query : PyStr) (elapsed : ℚ) (filters : Option Filters) :
    List.Sublist (hybrid_search db vr query elapsed filters).results
      (semantic_search db vr query elapsed).results ∧
    (hybrid_search db vr query elapsed filters).total_results
      ≤ (semantic_search db vr query elapsed).total_results ∧
    (∀ did lang, filters = some ⟨did, some lang⟩ →
      (∀ r ∈ (semantic_search db vr query elapsed).results,
        langMatches db lang r = false) →
      (hybrid_search db vr query elapsed filters).total_results = 0) := by
  cases filters with
  | none =>
    refine ⟨List.Sublist.refl _, le_refl _, ?_⟩
    intro did lang heq
    cases heq
  | some fs =>
    obtain ⟨did, lang⟩ := fs
    cases lang with
    | none =>
      refine ⟨List.Sublist.refl _, le_refl _, ?_⟩
      intro did2 lang2 heq
      simp [Filters.mk.injEq] at heq
    | some lf =>
      refine ⟨List.filter_sublist _, ?_, ?_⟩
      · rw [semantic_search_total]
        exact List.length_filter_le _ _
      · intro did2 lang2 heq hall
        have hlf : lf = lang2 := by
          simp only [Option.some.injEq, Filters.mk.injEq] at heq
          exact heq.2
        show ((semantic_search db vr query elapsed).results.filter
          (langMatches db lf)).length = 0
        rw [List.length_eq_zero, List.filter_eq_nil_iff]
        intro a ha
        rw [hlf]
        simp [hall a ha]

theorem C8_hybrid_filters_semantic_witness :
    (∀ r ∈ (semantic_search
        ⟨[⟨"X".toList, "D".toList, "t".toList, 0⟩],
         [⟨"D".toList, "f.txt".toList, "english".toList⟩]⟩
        ⟨[["X".toList]], [[0]]⟩ ("q".toList) 0).results,
      langMatches
        ⟨[⟨"X".toList, "D".toList, "t".toList, 0⟩],
         [⟨"D".toList, "f.txt".toList, "english".toList⟩]⟩
        ("arabic".toList) r = false) ∧
    (hybrid_search
        ⟨[⟨"X".toList, "D".toList, "t".toList, 0⟩],
         [⟨"D".toList, "f.txt".toList, "english".toList⟩]⟩
        ⟨[["X".toList]], [[0]]⟩ ("q".toList) 0
        (some ⟨none, some ("arabic".toList)⟩)).total_results = 0 := by
  have hall : ∀ r ∈ (semantic_search
      ⟨[⟨"X".toList, "D".toList, "t".toList, 0⟩],
       [⟨"D".toList, "f.txt".toList, "english".toList⟩]⟩
      ⟨[["X".toList]], [[0]]⟩ ("q".toList) 0).results,
      langMatches
        ⟨[⟨"X".toList, "D".toList, "t".toList, 0⟩],
         [⟨"D".toList, "f.txt".toList, "english".toList⟩]⟩
        ("arabic".toList) r = false := by
    simp +decide [semantic_search, firstIds, firstDistances, get_chunk_details,
      get_document, mkSearchResult, List.enum, List.enumFrom, langMatches]
  exact ⟨hall,
    (C8_hybrid_filters_semantic _ _ _ _ _).2.2 none ("arabic".toList) rfl hall⟩

/-- C5: `dynamic_chunking` never emits a chunk with empty text, and a chunk
whose word count exceeds `size` is necessarily a single sentence — an element
of the sentence splitter's output for some paragraph of the input — whose own
word count therefore exceeds `size`: the size budget is a soft cap, never a
hard truncation. -/
theorem C5_dynamic_no_empty_soft_cap (sent_tokenize : PyStr → List PyStr)
    (size : ℕ) (text : PyStr) :
    ∀ c ∈ dynamic_chunking sent_tokenize size text,
      c.text ≠ [] ∧
      (size < (pySplitL c.text).length →
        ∃ p ∈ split_paragraphs text,
          c.text ∈ split_sentences sent_tokenize p) :=
  fun c hc => dynamic_chunking_good sent_tokenize size text c hc

theorem C5_dynamic_no_empty_soft_cap_witness :
    ((⟨"Hello world.".toList, 0, 0, 12, .paragraphMeta 2⟩ : Chunk) ∈
        dynamic_chunking splitPunct 512 ("Hello world.".toList)) ∧
    "Hello world.".toList ≠ ([] : PyStr) := by
  have hm : (⟨"Hello world.".toList, 0, 0, 12, .paragraphMeta 2⟩ : Chunk) ∈
      dynamic_chunking splitPunct 512 ("Hello world.".toList) := by
    simp +decide [dynamic_chunking, split_paragraphs, splitBlankRe, lastNLIdx,
      pyStrip, isPySpace, paraLoop, pySplitL, sentenceLoop, emitMulti,
      joinWordsL, split_sentences, splitPunct, isSentPunct]
  exact ⟨hm, (C5_dynamic_no_empty_soft_cap splitPunct 512 _ _ hm).1⟩

/-- C6: `decide_strategy` returns `'dynamic'` exactly when the complexity
score exceeds `0.6` or the text has structural elements, and `'fixed'`
otherwise; the metadata argument (including `language`) does not affect the
decision, so identical input always yields the same strategy; the
all-caps-heading example yields `'dynamic'` for every sentence tokenizer (the
heading heuristic fires), and the plain-sentence example yields `'fixed'`
(evaluated with the source's own punctuation fallback standing in for the
external NLTK tokenizer). -/
theorem C6_decide_strategy_rule :
    (∀ (sent_tokenize : PyStr → List PyStr) (text : PyStr)
        (metadata : List (PyStr × PyStr)),
      (decide_strategy sent_tokenize text metadata = "dynamic".toList ↔
        ((0.6 : ℚ) < calculate_complexity sent_tokenize text ∨
          has_structural_elements text = true)) ∧
      (decide_strategy sent_tokenize text metadata = "fixed".toList ↔
        ¬ ((0.6 : ℚ) < calculate_complexity sent_tokenize text ∨
          has_structural_elements text = true))) ∧
    (∀ (sent_tokenize : PyStr → List PyStr) (text : PyStr)
        (metadata metadata2 : List (PyStr × PyStr)),
      decide_strategy sent_tokenize text metadata
        = decide_strategy sent_tokenize text metadata2) ∧
    (∀ (sent_tokenize : PyStr → List PyStr)
        (metadata : List (PyStr × PyStr)),
      decide_strategy sent_tokenize
          ("ALL CAPS HEADING

Body text here.".toList) metadata
        = "dynamic".toList) ∧
    decide_strategy splitPunct ("plain short sentence.".toList) []
      = "fixed".toList := by
  have hds : ∀ (st : PyStr → List PyStr) (text : PyStr)
      (md : List (PyStr × PyStr)),
      decide_strategy st text md =
        if (0.6 : ℚ) < calculate_complexity st text ∨
            has_structural_elements text = true
        then "dynamic".toList else "fixed".toList := fun _ _ _ => rfl
  refine ⟨?_, ?_, ?_, ?_⟩
  · intro st text md
    rw [hds]
    by_cases hcond : (0.6 : ℚ) < calculate_complexity st text ∨
        has_structural_elements text = true
    · rw [if_pos hcond]
      exact ⟨iff_of_true rfl hcond, iff_of_false (by decide) (not_not_intro hcond)⟩
    · rw [if_neg hcond]
      exact ⟨iff_of_false (by decide) hcond, iff_of_true rfl hcond⟩
  · intro st text md md2
    rfl
  · intro st md
    have hstruct : has_structural_elements
        ("ALL CAPS HEADING

Body text here.".toList) = true := by
      simp +decide [has_structural_elements, splitSep, pyStrip, isPySpace,
        pyIsUpper, pyEndsWith, listPatternMatch, isBulletChar, pySplitL]
    rw [hds, if_pos (Or.inr hstruct)]
  · have hc : calculate_complexity splitPunct
        ("plain short sentence.".toList) = 11/20 := by
      simp +decide [calculate_complexity, split_sentences, splitPunct,
        isSentPunct, pyStrip, isPySpace, pySplitL, pyLower]
      norm_num
    have hs : has_structural_elements ("plain short sentence.".toList)
        = false := by
      simp +decide [has_structural_elements, splitSep, pyStrip, isPySpace,
        pyIsUpper, pyEndsWith, listPatternMatch, isBulletChar, pySplitL]
    rw [hds, hc, hs]
    rw [if_neg (by norm_num)]

/-! ### C9 helper lemmas: texts of whitespace and sentence punctuation only
have no structural elements -/

theorem space_or_punct_not_upper (c : Char)
    (h : isPySpace c = true ∨ isSentPunct c = true) : c.isUpper = false := by
  rcases h with h | h
  · simp only [isPySpace, Bool.or_eq_true, decide_eq_true_eq] at h
    rcases h with (((((h | h) | h) | h) | h) | h) <;> subst h <;> decide
  · simp only [isSentPunct, Bool.or_eq_true, decide_eq_true_eq] at h
    rcases h with ((h | h) | h) <;> subst h <;> decide

theorem bullet_not_space_punct (c : Char) (hb : isBulletChar c = true)
    (h : isPySpace c = true ∨ isSentPunct c = true) : False := by
  rcases h with h | h
  · simp only [isPySpace, Bool.or_eq_true, decide_eq_true_eq] at h
    rcases h with (((((h | h) | h) | h) | h) | h) <;> subst h <;>
      simp +decide [isBulletChar] at hb
  · simp only [isSentPunct, Bool.or_eq_true, decide_eq_true_eq] at h
    rcases h with ((h | h) | h) <;> subst h <;>
      simp +decide [isBulletChar] at hb

theorem colon_not_space_punct :
    ¬ (isPySpace ':' = true ∨ isSentPunct ':' = true) := by decide

theorem listPatternMatch_exists (line : PyStr)
    (h : listPatternMatch line = true) :
    ∃ d ∈ line, isBulletChar d = true := by
  simp only [listPatternMatch, Bool.and_eq_true] at h
  have h1 := h.1
  cases hb : (line.dropWhile isPySpace).takeWhile isBulletChar with
  | nil => rw [hb] at h1; simp at h1
  | cons d rest =>
    refine ⟨d, ?_, ?_⟩
    · have hd1 : d ∈ (line.dropWhile isPySpace).takeWhile isBulletChar := by
        rw [hb]; exact List.mem_cons_self _ _
      have hd2 : d ∈ line.dropWhile isPySpace :=
        (List.takeWhile_sublist _).subset hd1
      exact (List.dropWhile_sublist _).subset hd2
    · have hd1 : d ∈ (line.dropWhile isPySpace).takeWhile isBulletChar := by
        rw [hb]; exact List.mem_cons_self _ _
      exact List.mem_takeWhile_imp hd1

theorem has_structural_elements_false_of_space_punct (text : PyStr)
    (hch : ∀ c ∈ text, isPySpace c = true ∨ isSentPunct c = true) :
    has_structural_elements text = false := by
  simp only [has_structural_elements, Bool.or_eq_false_iff, List.any_eq_false]
  constructor
  · intro line hline
    by_cases he : (pyStrip line).isEmpty
    · simp [he]
    · have hchars : ∀ c ∈ pyStrip line,
          isPySpace c = true ∨ isSentPunct c = true := by
        intro c hc
        exact hch c (mem_splitSep '
' text line hline c (mem_pyStrip hc))
      have hup : pyIsUpper (pyStrip line) = false := by
        unfold pyIsUpper
        rw [Bool.and_eq_false_iff]
        left
        rw [List.any_eq_false]
        intro c hc
        simp [space_or_punct_not_upper c (hchars c hc)]
      have hend : pyEndsWith ':' (pyStrip line) = false := by
        unfold pyEndsWith
        rw [decide_eq_false_iff_not]
        intro hlast
        have hcolon : (':' : Char) ∈ pyStrip line :=
          List.mem_of_getLast?_eq_some hlast
        exact colon_not_space_punct (hchars ':' hcolon)
      simp [hup, hend]
  · intro line hline
    by_contra h
    obtain ⟨d, hd, hdb⟩ := listPatternMatch_exists line h
    exact bullet_not_space_punct d hdb
      (hch d (mem_splitSep '
' text line hline d hd))

/-- C9: the complexity score is the average of the length signal (mean
sentence length in words, divided by 30, capped at 1) and the diversity
signal (distinct words over total words, 0 if no words), hence lies in
`[0, 1]`; empty input, and more generally input with no sentences, yields
complexity exactly 0 and no structural elements (the no-sentences case is
settled for the source's punctuation fallback tokenizer: no sentences then
means the text is whitespace and sentence punctuation only). -/
theorem C9_complexity_analysis :
    (∀ (sent_tokenize : PyStr → List PyStr) (text : PyStr),
      split_sentences sent_tokenize text ≠ [] →
      calculate_complexity sent_tokenize text =
        (min ((((split_sentences sent_tokenize text).map
              (fun s => (pySplitL s).length)).sum : ℚ)
            / ((split_sentences sent_tokenize text).length : ℚ) / 30) 1
          + (if (pySplitL (pyLower text)).isEmpty then 0
             else ((pySplitL (pyLower text)).dedup.length : ℚ)
               / ((pySplitL (pyLower text)).length : ℚ))) / 2) ∧
    (∀ (sent_tokenize : PyStr → List PyStr) (text : PyStr),
      0 ≤ calculate_complexity sent_tokenize text ∧
      calculate_complexity sent_tokenize text ≤ 1) ∧
    (∀ (sent_tokenize : PyStr → List PyStr) (text : PyStr),
      split_sentences sent_tokenize text = [] →
      calculate_complexity sent_tokenize text = 0) ∧
    (calculate_complexity splitPunct [] = 0 ∧
      has_structural_elements [] = false) ∧
    (∀ text : PyStr, split_sentences splitPunct text = [] →
      calculate_complexity splitPunct text = 0 ∧
      has_structural_elements text = false) := by
  have heq : ∀ (st : PyStr → List PyStr) (text : PyStr),
      calculate_complexity st text =
        if (split_sentences st text).isEmpty then 0
        else
          (min ((((split_sentences st text).map
                (fun s => (pySplitL s).length)).sum : ℚ)
              / ((split_sentences st text).length : ℚ) / 30) 1
            + (if (pySplitL (pyLower text)).isEmpty then 0
               else ((pySplitL (pyLower text)).dedup.length : ℚ)
                 / ((pySplitL (pyLower text)).length : ℚ))) / 2 :=
    fun _ _ => rfl
  have hzero : ∀ (st : PyStr → List PyStr) (text : PyStr),
      split_sentences st text = [] → calculate_complexity st text = 0 := by
    intro st text hse
    rw [heq, if_pos (by simp [hse])]
  have hnostruct : ∀ text : PyStr, split_sentences splitPunct text = [] →
      has_structural_elements text = false := by
    intro text hse
    apply has_structural_elements_false_of_space_punct
    apply splitPunct_all_space
    intro p hp
    have hps : pyStrip p = [] := by
      unfold split_sentences at hse
      rw [List.filter_eq_nil_iff] at hse
      have h2 := hse (pyStrip p) (List.mem_map_of_mem pyStrip hp)
      simpa [List.isEmpty_iff] using h2
    rw [pyStrip_eq_nil_iff] at hps
    exact hps
  refine ⟨?_, ?_, hzero, ⟨hzero splitPunct [] (by simp +decide [split_sentences, splitPunct]), ?_⟩, ?_⟩
  · intro st text hne
    rw [heq, if_neg (by simpa [List.isEmpty_iff] using hne)]
  · intro st text
    rw [heq]
    by_cases hse : (split_sentences st text).isEmpty
    · rw [if_pos hse]; norm_num
    · rw [if_neg hse]
      have hls0 : (0 : ℚ) ≤ min ((((split_sentences st text).map
            (fun s => (pySplitL s).length)).sum : ℚ)
          / ((split_sentences st text).length : ℚ) / 30) 1 := by
        apply le_min _ (by norm_num)
        apply div_nonneg (div_nonneg (by positivity) (by positivity))
        norm_num
      have hls1 : min ((((split_sentences st text).map
            (fun s => (pySplitL s).length)).sum : ℚ)
          / ((split_sentences st text).length : ℚ) / 30) 1 ≤ 1 :=
        min_le_right _ _
      have hdv : (0 : ℚ) ≤ (if (pySplitL (pyLower text)).isEmpty then 0
            else ((pySplitL (pyLower text)).dedup.length : ℚ)
              / ((pySplitL (pyLower text)).length : ℚ)) ∧
          (if (pySplitL (pyLower text)).isEmpty then 0
            else ((pySplitL (pyLower text)).dedup.length : ℚ)
              / ((pySplitL (pyLower text)).length : ℚ)) ≤ 1 := by
        by_cases hw : (pySplitL (pyLower text)).isEmpty
        · rw [if_pos hw]; norm_num
        · rw [if_neg hw]
          have hwne : pySplitL (pyLower text) ≠ [] := by
            simpa [List.isEmpty_iff] using hw
          have hpos : (0 : ℚ) < ((pySplitL (pyLower text)).length : ℚ) := by
            have := List.length_pos.mpr hwne
            exact_mod_cast this
          constructor
          · positivity
          · rw [div_le_one hpos]
            exact_mod_cast (List.dedup_sublist _).length_le
      constructor
      · linarith [hls0, hdv.1]
      · linarith [hls1, hdv.2]
  · exact has_structural_elements_false_of_space_punct [] (by simp)
  · intro text hse
    exact ⟨hzero splitPunct text hse, hnostruct text hse⟩

theorem C9_complexity_analysis_witness :
    split_sentences splitPunct (". ?!".toList) = [] ∧
    calculate_complexity splitPunct (". ?!".toList) = 0 ∧
    has_structural_elements (". ?!".toList) = false := by
  have h : split_sentences splitPunct (". ?!".toList) = [] := by
    simp +decide [split_sentences, splitPunct, isSentPunct, pyStrip, isPySpace]
  have h2 := C9_complexity_analysis.2.2.2.2 (". ?!".toList) h
  exact ⟨h, h2.1, h2.2⟩

/-- C10: every chunk emitted by `fixed_chunking` (whenever the loop
terminates) or by `dynamic_chunking` satisfies
`end_char = start_char + len(text)` exactly — even though the offsets are
only approximate positions in the source — and within one produced sequence
the `start_char` values are non-decreasing in chunk order. -/
theorem C10_offsets_consistent :
    (∀ (size overlap : ℕ) (text : PyStr) (chunks : List Chunk),
      fixed_chunking size overlap text = some chunks →
      (∀ c ∈ chunks, c.end_char = c.start_char + c.text.length) ∧
      (chunks.map Chunk.start_char).Pairwise (· ≤ ·)) ∧
    (∀ (sent_tokenize : PyStr → List PyStr) (size : ℕ) (text : PyStr),
      (∀ c ∈ dynamic_chunking sent_tokenize size text,
        c.end_char = c.start_char + c.text.length) ∧
      ((dynamic_chunking sent_tokenize size text).map
        Chunk.start_char).Pairwise (· ≤ ·)) :=
  ⟨fixed_chunking_offsets, dynamic_chunking_inv⟩

theorem C10_offsets_consistent_witness :
    fixed_chunking 2 0 ("a b c".toList)
        = some [⟨"a b".toList, 0, 0, 3, .fixedMeta 2 3⟩,
                ⟨"c".toList, 1, 3, 4, .fixedMeta 1 1⟩] ∧
    ((∀ c ∈ [(⟨"a b".toList, 0, 0, 3, .fixedMeta 2 3⟩ : Chunk),
              ⟨"c".toList, 1, 3, 4, .fixedMeta 1 1⟩],
        c.end_char = c.start_char + c.text.length) ∧
      (([(⟨"a b".toList, 0, 0, 3, .fixedMeta 2 3⟩ : Chunk),
         ⟨"c".toList, 1, 3, 4, .fixedMeta 1 1⟩]).map
        Chunk.start_char).Pairwise (· ≤ ·)) := by
  have h : fixed_chunking 2 0 ("a b c".toList)
      = some [⟨"a b".toList, 0, 0, 3, .fixedMeta 2 3⟩,
              ⟨"c".toList, 1, 3, 4, .fixedMeta 1 1⟩] := by
    simp +decide [fixed_chunking, fixedChunkingLoop, mkFixedChunk, pySplitL,
      isPySpace, joinWordsL]
  exact ⟨h, C10_offsets_consistent.1 2 0 ("a b c".toList) _ h⟩

/-- C4 counterexample: the whitespace-only text `" "` is a non-empty string
and `size = 2 > overlap = 0` is a valid configuration, yet `fixed_chunking`
produces zero chunks, because `str.split()` yields no words — so "for every
non-empty text ... at least one chunk" fails as stated. -/
theorem C4_counterexample :
    (" ".toList ≠ ([] : PyStr)) ∧ 0 < 2 ∧
    fixed_chunking 2 0 (" ".toList) = some [] := by
  refine ⟨by decide, by norm_num, ?_⟩
  simp +decide [fixed_chunking, pySplitL, isPySpace]

theorem fixed_chunks_getElem (size overlap : ℕ) (text : PyStr) (i : ℕ)
    (c : Chunk)
    (h : ((List.range
        (windowCount (pySplitL text).length 0 (size - overlap))).map
      (fun k => mkFixedChunk (pySplitL text) size (k * (size - overlap)) k))[i]?
        = some c) :
    c = mkFixedChunk (pySplitL text) size (i * (size - overlap)) i := by
  rw [List.getElem?_map] at h
  cases hr : (List.range
      (windowCount (pySplitL text).length 0 (size - overlap)))[i]? with
  | none => rw [hr] at h; simp at h
  | some k =>
    rw [hr] at h
    have hlt : i < windowCount (pySplitL text).length 0 (size - overlap) := by
      by_contra hge
      rw [List.getElem?_eq_none (by rw [List.length_range]; omega)] at hr
      cases hr
    rw [List.getElem?_range hlt] at hr
    have hk := Option.some.inj hr
    subst hk
    simp only [Option.map_some'] at h
    exact (Option.some.inj h).symm

theorem window_sound (text : PyStr) (s size : ℕ) :
    ∀ w ∈ ((pySplitL text).drop s).take size,
      w ≠ [] ∧ ∀ ch ∈ w, isPySpace ch = false :=
  fun w hw => pySplitL_sound text w
    ((List.drop_sublist _ _).subset ((List.take_sublist _ _).subset hw))

/-- C4 (amended): for every text whose whitespace-split word sequence is
non-empty and every configuration with `overlap < size`, `fixed_chunking`
terminates and produces at least one chunk; chunk indices are exactly
`0..n-1` with no gaps; whenever window `i` is full, the last `overlap` words
of chunk `i` are exactly the first `overlap` words of chunk `i+1`; and on the
20-word input with `size = 10`, `overlap = 2` it produces exactly the 3
chunks of word-indices `[0:10]`, `[8:18]`, `[16:20]`. -/
theorem C4_fixed_chunking_props :
    (∀ (size overlap : ℕ) (text : PyStr), overlap < size →
      ∃ chunks, fixed_chunking size overlap text = some chunks ∧
        (pySplitL text ≠ [] → chunks ≠ []) ∧
        (∀ (i : ℕ) (c : Chunk), chunks[i]? = some c → c.index = i) ∧
        (∀ (i : ℕ) (c c2 : Chunk), chunks[i]? = some c →
          chunks[i + 1]? = some c2 →
          i * (size - overlap) + size ≤ (pySplitL text).length →
          (pySplitL c.text).length = size ∧
          (pySplitL c2.text).take overlap
            = (pySplitL c.text).drop (size - overlap))) ∧
    ((fixed_chunking 10 2
        ("w1 w2 w3 w4 w5 w6 w7 w8 w9 w10 w11 w12 w13 w14 w15 w16 w17 w18 w19 w20".toList)).map
          (fun l => l.map (fun c => pySplitL c.text))
      = some [(pySplitL ("w1 w2 w3 w4 w5 w6 w7 w8 w9 w10 w11 w12 w13 w14 w15 w16 w17 w18 w19 w20".toList)).take 10,
              ((pySplitL ("w1 w2 w3 w4 w5 w6 w7 w8 w9 w10 w11 w12 w13 w14 w15 w16 w17 w18 w19 w20".toList)).drop 8).take 10,
              ((pySplitL ("w1 w2 w3 w4 w5 w6 w7 w8 w9 w10 w11 w12 w13 w14 w15 w16 w17 w18 w19 w20".toList)).drop 16).take 10]) := by
  constructor
  · intro size overlap text hov
    refine ⟨_, fixed_chunking_eq size overlap hov text, ?_, ?_, ?_⟩
    · intro hw
      have hlen : 1 ≤ (pySplitL text).length := List.length_pos.mpr hw
      have hcnt := windowCount_pos (pySplitL text).length (size - overlap)
        (by omega) hlen
      apply List.ne_nil_of_length_pos
      rw [List.length_map, List.length_range]
      omega
    · intro i c hc
      rw [fixed_chunks_getElem size overlap text i c hc]
      rfl
    · intro i c c2 hc hc2 hfull
      rw [fixed_chunks_getElem size overlap text i c hc]
      rw [fixed_chunks_getElem size overlap text (i + 1) c2 hc2]
      have htext : ∀ j : ℕ,
          pySplitL (mkFixedChunk (pySplitL text) size (j * (size - overlap)) j).text
            = ((pySplitL text).drop (j * (size - overlap))).take size :=
        fun j => pySplitL_joinWordsL _ (window_sound text _ _)
      rw [htext i, htext (i + 1)]
      constructor
      · rw [List.length_take, List.length_drop]
        omega
      · rw [List.take_take, min_eq_left (le_of_lt hov)]
        rw [List.drop_take, List.drop_drop]
        have e3 : size - (size - overlap) = overlap := by omega
        have e4 : i * (size - overlap) + (size - overlap)
            = (i + 1) * (size - overlap) := by
          have hm : (i + 1) * (size - overlap)
              = i * (size - overlap) + (size - overlap) := by
            rw [Nat.add_mul, Nat.one_mul]
          omega
        rw [e3, e4]
  · simp +decide [fixed_chunking, fixedChunkingLoop, mkFixedChunk, pySplitL,
      isPySpace, joinWordsL]

theorem C4_fixed_chunking_props_witness :
    1 < 2 ∧
    (∃ chunks, fixed_chunking 2 1 ("x y".toList) = some chunks ∧
      (pySplitL ("x y".toList) ≠ [] → chunks ≠ []) ∧
      (∀ (i : ℕ) (c : Chunk), chunks[i]? = some c → c.index = i) ∧
      (∀ (i : ℕ) (c c2 : Chunk), chunks[i]? = some c →
        chunks[i + 1]? = some c2 →
        i * (2 - 1) + 2 ≤ (pySplitL ("x y".toList)).length →
        (pySplitL c.text).length = 2 ∧
        (pySplitL c2.text).take 1 = (pySplitL c.text).drop (2 - 1))) :=
  ⟨by norm_num, C4_fixed_chunking_props.1 2 1 ("x y".toList) (by norm_num)⟩

end Pyxon
